import Mathlib

set_option maxHeartbeats 1600000

/-! Shallow embedding of the jagged-array storage model of `src/vla.py`
(`class JaggedArray`): an array of variable-length rows packed into one flat
values buffer, with a compressed index table whose negative entries encode
null rows.  Python lists become Lean lists, Python's unbounded `int` becomes
`Int`/`Nat`, raised exceptions become explicit error values paired with the
state the object holds when the exception propagates. -/

/-- A logical row of the jagged array: never assigned (`UNSPECIFIED` in the
source), an explicit null row (Python `None`), or a row of values (a Python
list).  `__setitem__` also mentions a `VarLengthArray` wrapper class, but
that name is undefined in the module (only `itertools` is imported), so no
such instance can exist and `Values` models exactly the Python lists. -/
inductive Row where
  | Unset : Row
  | Null : Row
  | Values : List Int → Row
  deriving DecidableEq

/-- Failure outcomes of `__setitem__`.  The source raises `AssertionError`
(the two index asserts and the capacity assert) or `IndexError` (reading
`storage_indices[index]` out of range); the spec names those outcomes, and
Python's `IndexError` is identified with `IndexOutOfBounds`, the bounds
assert's name.  `NameError` is Python's error for evaluating
`isinstance(varlenarray, VarLengthArray)` at vla.py:158: `VarLengthArray`
is undefined in the module, so every row that is neither `None` nor a list
raises it there. -/
inductive VErr where
  | IndexOutOfBounds : VErr
  | DuplicateAssignment : VErr
  | CapacityExceeded : VErr
  | NameError : VErr
  deriving DecidableEq

/-- State of a `JaggedArray` object: the five fields set up by `__init__`. -/
structure JaggedArray where
  max_buffer_size : Nat
  size : Nat
  compressed_indices : List Int
  storage_count : Nat
  storage_indices : List Int
  values : List Int
  deriving DecidableEq

/-- `xs[i]` for a Python list read with an `int` index: nonnegative indices
read from the front, negative ones wrap once from the back, anything else
raises `IndexError` (here: `none`). -/
def pyGetI (xs : List Int) (i : Int) : Option Int :=
  if 0 ≤ i then
    if i < (xs.length : Int) then some (xs.getD i.toNat 0) else none
  else
    if -(xs.length : Int) ≤ i then some (xs.getD (i + xs.length).toNat 0) else none

/-- `xs[p:q]` for a Python slice read at bounds `0 ≤ p`: a `q` past the end
clamps, `q ≤ p` yields `[]`.  Every slice the source reads has `0 ≤ p`
(`_unsafe_getitem` returns `Null` first whenever `ptr < 0`). -/
def pySlice (xs : List Int) (p q : Int) : List Int :=
  (xs.take q.toNat).drop p.toNat

/-- `xs[p:p+len(vs)] = vs` for a Python slice write at a nonnegative offset;
the source asserts `p + len(vs) <= len(xs)` before writing. -/
def pySplice (xs : List Int) (p : Nat) (vs : List Int) : List Int :=
  xs.take p ++ vs ++ xs.drop (p + vs.length)

namespace JaggedArray

/-- `__init__(size, max_buffer_size)`. -/
def new (size : Nat) (max_buffer_size : Nat) : JaggedArray :=
  { max_buffer_size := max_buffer_size
    size := size
    compressed_indices := List.replicate (size + 1) 0
    storage_count := 0
    storage_indices := List.replicate size (-1)
    values := List.replicate max_buffer_size 0 }

/-- Reads `compressed_indices[j]` (in-range on every reachable store). -/
def cval (a : JaggedArray) (j : Nat) : Int :=
  a.compressed_indices.getD j 0

/-- Reads `storage_indices[i]` (in-range on every reachable store). -/
def siAt (a : JaggedArray) (i : Nat) : Int :=
  a.storage_indices.getD i 0

/-- The decoded buffer offset held at `compressed_indices[j]`: a negative
null marker `-(ptr+1)` decodes back to `ptr`. -/
def offAt (a : JaggedArray) (j : Nat) : Int :=
  if cval a j < 0 then -(cval a j + 1) else cval a j

/-- `_unsafe_setnull`. -/
def unsafeSetnull (a : JaggedArray) (index : Nat) : JaggedArray :=
  let storage_index := a.storage_count
  let ptr := cval a storage_index
  { a with
    storage_indices := a.storage_indices.set index (storage_index : Int)
    compressed_indices :=
      (a.compressed_indices.set (storage_index + 1) ptr).set storage_index (-(ptr + 1))
    storage_count := storage_index + 1 }

/-- `_unsafe_setitem`.  The write to `storage_indices[index]` precedes the
capacity assertion in the source, so a failing call returns the partially
mutated store together with `CapacityExceeded`. -/
def unsafeSetitem (a : JaggedArray) (index : Nat) (vs : List Int) :
    JaggedArray × Option VErr :=
  let storage_index := a.storage_count
  let a1 := { a with
    storage_indices := a.storage_indices.set index (storage_index : Int) }
  let ptr := cval a1 storage_index
  if ptr + (vs.length : Int) ≤ (a1.values.length : Int) then
    ({ a1 with
       compressed_indices :=
         a1.compressed_indices.set (storage_index + 1) (ptr + (vs.length : Int))
       values := pySplice a1.values ptr.toNat vs
       storage_count := storage_index + 1 }, none)
  else (a1, some .CapacityExceeded)

/-- `_unsafe_getitem`. -/
def unsafeGetitem (a : JaggedArray) (index : Nat) : Row :=
  let storage_index := siAt a index
  if storage_index = -1 then .Unset
  else
    let ptr := cval a storage_index.toNat
    if ptr < 0 then .Null
    else
      let next_ptr := cval a (storage_index.toNat + 1)
      let size := if next_ptr < 0 then -(next_ptr + 1) - ptr else next_ptr - ptr
      .Values (pySlice a.values ptr (ptr + size))

/-- Index normalization at the top of `__setitem__` and `__getitem__`:
`if index < 0: index += self.size`. -/
def normIdx (a : JaggedArray) (index : Int) : Int :=
  if index < 0 then index + (a.size : Int) else index

/-- `__setitem__`: the duplicate assert (whose Python list read wraps
negative indices once more), the bounds assert, then dispatch on the row.
`None` and lists reach the unsafe writers; `UNSPECIFIED` fails with
`NameError`, because the `isinstance(varlenarray, VarLengthArray)` test at
vla.py:158 is evaluated before the `UNSPECIFIED` test at vla.py:161 and
the name `VarLengthArray` is undefined in the module — the no-op branch at
vla.py:161-162 is dead code.  Returns the store as the call leaves it plus
the raised error, if any. -/
def setitem (a : JaggedArray) (index : Int) (row : Row) :
    JaggedArray × Option VErr :=
  let idx := normIdx a index
  match pyGetI a.storage_indices idx with
  | none => (a, some .IndexOutOfBounds)
  | some sv =>
    if sv = -1 then
      if 0 ≤ idx ∧ idx < (a.size : Int) then
        match row with
        | .Null => (unsafeSetnull a idx.toNat, none)
        | .Values vs => unsafeSetitem a idx.toNat vs
        | .Unset => (a, some .NameError)
      else (a, some .IndexOutOfBounds)
    else (a, some .DuplicateAssignment)

/-- `__getitem__`: normalization plus the bounds assert, then the raw read;
`none` is the failed assert. -/
def getitem (a : JaggedArray) (index : Int) : Option Row :=
  let idx := normIdx a index
  if 0 ≤ idx ∧ idx < (a.size : Int) then some (unsafeGetitem a idx.toNat) else none

/-- `tolist`: `[self[index] for index in range(self.size)]`; every index in
`range(size)` passes `__getitem__`'s bounds assert unchanged, leaving
`_unsafe_getitem`. -/
def tolist (a : JaggedArray) : List Row :=
  (List.range a.size).map fun index => unsafeGetitem a index

/-- `finalize`: walk `storage_indices`, nulling every still-unset row.  Each
loop step mutates `storage_indices` only at the position it visits, so
Python's `enumerate` over the mutating list reads each entry exactly as this
fold does. -/
def finalize (a : JaggedArray) : JaggedArray :=
  (List.range a.storage_indices.length).foldl
    (fun b index => if siAt b index = -1 then unsafeSetnull b index else b) a

/-- `normalize`: rebuild into a fresh store of capacity
`compressed_indices[storage_count]`, committing rows in logical order.
`_unsafe_getitem` returns `Unset` exactly when `storage_indices[index] == -1`,
so the source's `== -1` test combined with its `values is None` test is one
match on the decoded row.  The capacity assert inside `_unsafe_setitem`
never fires on a well-formed source (proved below), so `.1` keeps the
committed store. -/
def normalize (a : JaggedArray) (unspecified_is_null : Bool) : JaggedArray :=
  (List.range a.storage_indices.length).foldl
    (fun jarr index =>
      match unsafeGetitem a index with
      | .Unset => if unspecified_is_null then unsafeSetnull jarr index else jarr
      | .Null => unsafeSetnull jarr index
      | .Values vs => (unsafeSetitem jarr index vs).1)
    (JaggedArray.new a.size (cval a a.storage_count).toNat)

/-- `_unsafe_getitem` as a state-threaded method call on the receiver: the
body performs only field reads, so the receiver comes back as it went in. -/
def getitemRead (a : JaggedArray) (index : Nat) : JaggedArray × Row :=
  (a, unsafeGetitem a index)

/-- `normalize` with the receiver threaded through every operation the loop
performs on it, returning (receiver after the call, constructed copy). -/
def normalizeS (a : JaggedArray) (unspecified_is_null : Bool) :
    JaggedArray × JaggedArray :=
  (List.range a.storage_indices.length).foldl
    (fun p index =>
      let r := getitemRead p.1 index
      match r.2 with
      | .Unset => (r.1, if unspecified_is_null then unsafeSetnull p.2 index else p.2)
      | .Null => (r.1, unsafeSetnull p.2 index)
      | .Values vs => (r.1, (unsafeSetitem p.2 index vs).1))
    (a, JaggedArray.new a.size (cval a a.storage_count).toNat)

end JaggedArray

/-- The row a logical row list holds at `i`. -/
def rowAt (m : List Row) (i : Nat) : Row := m.getD i .Unset

/-- The number of buffer elements a row consumes. -/
def vlen : Row → Nat
  | .Values vs => vs.length
  | _ => 0

/-- Total buffer elements consumed by the `Values` rows of a row list. -/
def valueCount : List Row → Nat
  | [] => 0
  | r :: t => vlen r + valueCount t

/-- Number of assigned (non-`Unset`) rows of a row list. -/
def assignedCount : List Row → Nat
  | [] => 0
  | r :: t => (if r = .Unset then 0 else 1) + assignedCount t

/-- Resolution of unset rows to null, as performed by `finalize` and
`normalize(unspecified_is_null=True)`. -/
def fill : Row → Row
  | .Unset => .Null
  | r => r

/-! ### List helpers: Python reads and writes at checked positions -/

theorem getD_set_self {α : Type} (xs : List α) (i : Nat) (v d : α)
    (h : i < xs.length) : (xs.set i v).getD i d = v := by
  induction xs generalizing i with
  | nil => simp at h
  | cons x t ih =>
    cases i with
    | zero => rfl
    | succ n => simpa [List.getD_cons_succ] using ih n (by simpa using h)

theorem getD_set_ne {α : Type} (xs : List α) (i j : Nat) (v d : α)
    (h : i ≠ j) : (xs.set i v).getD j d = xs.getD j d := by
  induction xs generalizing i j with
  | nil => rfl
  | cons x t ih =>
    cases i with
    | zero =>
      cases j with
      | zero => exact absurd rfl h
      | succ m => rfl
    | succ n =>
      cases j with
      | zero => rfl
      | succ m => simpa [List.getD_cons_succ] using ih n m (by omega)

theorem getD_replicate {α : Type} (n i : Nat) (x d : α) (h : i < n) :
    (List.replicate n x).getD i d = x := by
  induction n generalizing i with
  | zero => omega
  | succ k ih =>
    cases i with
    | zero => rfl
    | succ m => simpa [List.replicate_succ, List.getD_cons_succ] using ih m (by omega)

theorem set_getD_self {α : Type} (xs : List α) (i : Nat) (d : α)
    (h : i < xs.length) : xs.set i (xs.getD i d) = xs := by
  induction xs generalizing i with
  | nil => rfl
  | cons x t ih =>
    cases i with
    | zero => rfl
    | succ n => simpa [List.getD_cons_succ] using ih n (by simpa using h)

theorem getD_eq_of_lists {α : Type} (l1 l2 : List α) (d : α)
    (h : l1.length = l2.length)
    (h2 : ∀ i, i < l1.length → l1.getD i d = l2.getD i d) : l1 = l2 := by
  apply List.ext_getElem h
  intro i h1 hh2
  have := h2 i h1
  simpa [List.getD_eq_getElem?_getD, List.getElem?_eq_getElem, h1, hh2] using this

theorem splice_length (xs vs : List Int) (p : Nat)
    (h : p + vs.length ≤ xs.length) : (pySplice xs p vs).length = xs.length := by
  simp only [pySplice, List.length_append, List.length_take, List.length_drop]
  omega

theorem splice_take (xs vs : List Int) (p e : Nat) (he : e ≤ p)
    (hp : p ≤ xs.length) : (pySplice xs p vs).take e = xs.take e := by
  have hlt : (xs.take p).length = p := by simp [List.length_take]; omega
  calc (pySplice xs p vs).take e
      = (xs.take p ++ (vs ++ xs.drop (p + vs.length))).take e := by
        simp [pySplice]
    _ = (xs.take p).take e := List.take_append_of_le_length (by omega)
    _ = xs.take e := by rw [List.take_take]; congr 1; omega

theorem splice_read (xs vs : List Int) (p : Nat)
    (h : p + vs.length ≤ xs.length) :
    ((pySplice xs p vs).take (p + vs.length)).drop p = vs := by
  have hlt : (xs.take p).length = p := by simp [List.length_take]; omega
  have h0 : pySplice xs p vs = (xs.take p ++ vs) ++ xs.drop (p + vs.length) := by
    simp [pySplice]
  have h1 : ((xs.take p ++ vs) ++ xs.drop (p + vs.length)).take (p + vs.length)
      = xs.take p ++ vs := by
    rw [List.take_append_of_le_length (by simp [hlt])]
    exact List.take_of_length_le (by simp [hlt])
  rw [h0, h1, List.drop_append_of_le_length (le_of_eq hlt.symm),
    List.drop_of_length_le (le_of_eq hlt), List.nil_append]

/-! ### Model helpers -/

theorem rowAt_set_self (m : List Row) (i : Nat) (r : Row) (h : i < m.length) :
    rowAt (m.set i r) i = r := getD_set_self m i r .Unset h

theorem rowAt_set_ne (m : List Row) (i j : Nat) (r : Row) (h : i ≠ j) :
    rowAt (m.set i r) j = rowAt m j := getD_set_ne m i j r .Unset h

theorem rowAt_replicate_unset (n i : Nat) (h : i < n) :
    rowAt (List.replicate n Row.Unset) i = .Unset :=
  getD_replicate n i Row.Unset Row.Unset h

theorem valueCount_set (m : List Row) (i : Nat) (r : Row)
    (hu : rowAt m i = .Unset) (h : i < m.length) :
    valueCount (m.set i r) = valueCount m + vlen r := by
  induction m generalizing i with
  | nil => simp at h
  | cons x t ih =>
    cases i with
    | zero =>
      have : x = .Unset := hu
      subst this
      simp [valueCount, vlen]
      omega
    | succ n =>
      have : valueCount (t.set n r) = valueCount t + vlen r :=
        ih n (by simpa [rowAt, List.getD_cons_succ] using hu) (by simpa using h)
      simp [valueCount, this]
      omega

theorem assignedCount_set (m : List Row) (i : Nat) (r : Row)
    (hu : rowAt m i = .Unset) (hr : r ≠ .Unset) (h : i < m.length) :
    assignedCount (m.set i r) = assignedCount m + 1 := by
  induction m generalizing i with
  | nil => simp at h
  | cons x t ih =>
    cases i with
    | zero =>
      have : x = .Unset := hu
      subst this
      simp [assignedCount, hr]
      omega
    | succ n =>
      have : assignedCount (t.set n r) = assignedCount t + 1 :=
        ih n (by simpa [rowAt, List.getD_cons_succ] using hu) (by simpa using h)
      simp [assignedCount, this]
      omega

theorem assignedCount_le_length (m : List Row) : assignedCount m ≤ m.length := by
  induction m with
  | nil => simp [assignedCount]
  | cons x t ih =>
    simp only [assignedCount, List.length_cons]
    split <;> omega

theorem assignedCount_lt_length (m : List Row) (i : Nat) (h : i < m.length)
    (hu : rowAt m i = .Unset) : assignedCount m < m.length := by
  induction m generalizing i with
  | nil => simp at h
  | cons x t ih =>
    cases i with
    | zero =>
      have : x = .Unset := hu
      subst this
      have := assignedCount_le_length t
      simp [assignedCount]
      omega
    | succ n =>
      have := ih n (by simpa using h) (by simpa [rowAt, List.getD_cons_succ] using hu)
      simp only [assignedCount, List.length_cons]
      split <;> omega

theorem valueCount_replicate_unset (n : Nat) :
    valueCount (List.replicate n Row.Unset) = 0 := by
  induction n with
  | zero => rfl
  | succ k ih => simpa [List.replicate_succ, valueCount, vlen] using ih

theorem vlen_fill (r : Row) : vlen (fill r) = vlen r := by
  cases r <;> rfl

theorem fill_ne_unset (r : Row) : fill r ≠ .Unset := by
  cases r <;> simp [fill]

theorem assignedCount_replicate_unset (n : Nat) :
    assignedCount (List.replicate n Row.Unset) = 0 := by
  induction n with
  | zero => rfl
  | succ k ih => simpa [List.replicate_succ, assignedCount] using ih

open JaggedArray

/-- Well-formedness of a store `a` against the logical row list `m` it
represents: shapes of the three parallel arrays, the logical-index-to-slot
map discipline, monotone decoded offsets, the plain nonnegative tail entry
recording total consumption, and decode correctness of every logical index. -/
structure WF (a : JaggedArray) (m : List Row) : Prop where
  hsz : a.size = m.length
  hsil : a.storage_indices.length = m.length
  hcil : a.compressed_indices.length = m.length + 1
  hcnt : a.storage_count = assignedCount m
  hunset : ∀ i, i < m.length → (rowAt m i = .Unset ↔ siAt a i = -1)
  hslot : ∀ i, i < m.length → rowAt m i ≠ .Unset →
    0 ≤ siAt a i ∧ siAt a i < (a.storage_count : Int)
  hinj : ∀ i, i < m.length → ∀ j, j < m.length → rowAt m i ≠ .Unset →
    rowAt m j ≠ .Unset → siAt a i = siAt a j → i = j
  hmono : ∀ j, j < a.storage_count → offAt a j ≤ offAt a (j + 1)
  htail : cval a a.storage_count = (valueCount m : Int)
  hcap : (valueCount m : Int) ≤ (a.values.length : Int)
  hget : ∀ i, i < m.length → unsafeGetitem a i = rowAt m i

theorem WF.count_le (h : WF a m) : a.storage_count ≤ m.length :=
  h.hcnt ▸ assignedCount_le_length m

theorem WF.count_lt (h : WF a m) (i : Nat) (hi : i < m.length)
    (hu : rowAt m i = .Unset) : a.storage_count < m.length :=
  h.hcnt ▸ assignedCount_lt_length m i hi hu

/-- Chaining the consecutive-offset monotonicity of a well-formed store. -/
theorem offAt_chain (a : JaggedArray)
    (hm : ∀ j, j < a.storage_count → offAt a j ≤ offAt a (j + 1))
    (j k : Nat) (hjk : j ≤ k) (hk : k ≤ a.storage_count) :
    offAt a j ≤ offAt a k := by
  induction k with
  | zero =>
    have : j = 0 := by omega
    simp [this]
  | succ k ih =>
    rcases Nat.eq_or_lt_of_le hjk with he | hlt
    · exact le_of_eq (by rw [he])
    · exact le_trans (ih (by omega) (by omega)) (hm k (by omega))

/-- `_unsafe_getitem`, re-expressed through the decoded offset of the
following entry: the two branches of the size computation both read off
`offAt` of the next slot. -/
theorem unsafeGetitem_eq (a : JaggedArray) (i : Nat) :
    unsafeGetitem a i =
      if siAt a i = -1 then .Unset
      else if cval a (siAt a i).toNat < 0 then .Null
      else .Values (pySlice a.values (cval a (siAt a i).toNat)
        (offAt a ((siAt a i).toNat + 1))) := by
  unfold unsafeGetitem
  by_cases h1 : siAt a i = -1
  · simp [h1]
  · simp only [h1, if_false]
    by_cases h2 : cval a (siAt a i).toNat < 0
    · simp [h2]
    · simp only [h2, if_false, Row.Values.injEq]
      unfold offAt
      congr 1
      split <;> omega

theorem WF_new (n cap : Nat) : WF (new n cap) (List.replicate n Row.Unset) := by
  have hsi : ∀ i, i < n → siAt (new n cap) i = -1 := fun i hi =>
    getD_replicate n i (-1) 0 hi
  refine ⟨?_, ?_, ?_, ?_, ?_, ?_, ?_, ?_, ?_, ?_, ?_⟩
  · simp [new]
  · simp [new]
  · simp [new]
  · simp [new, assignedCount_replicate_unset]
  · intro i hi
    simp only [List.length_replicate] at hi
    simp [rowAt_replicate_unset n i hi, hsi i hi]
  · intro i hi hne
    exact absurd (rowAt_replicate_unset n i (by simpa using hi)) hne
  · intro i hi j hj hne
    exact absurd (rowAt_replicate_unset n i (by simpa using hi)) hne
  · intro j hj
    simp [new] at hj
  · simp [new, cval, valueCount_replicate_unset, getD_replicate (n + 1) 0 (0 : Int) 0 (by omega)]
  · simp [new, valueCount_replicate_unset]
  · intro i hi
    simp only [List.length_replicate] at hi
    rw [unsafeGetitem_eq, if_pos (hsi i hi), rowAt_replicate_unset n i hi]

/-- `_unsafe_setnull` on a well-formed store at a still-unset index
preserves well-formedness, the represented row becoming `Null`. -/
theorem WF_setnull (a : JaggedArray) (m : List Row) (h : WF a m) (i : Nat)
    (hi : i < m.length) (hu : rowAt m i = .Unset) :
    WF (unsafeSetnull a i) (m.set i .Null) := by
  set sc := a.storage_count with hscdef
  have hsc : sc < m.length := h.count_lt i hi hu
  set P : Int := (valueCount m : Int) with hPdef
  have hP0 : 0 ≤ P := Int.natCast_nonneg _
  have htailP : cval a sc = P := h.htail
  set a' := unsafeSetnull a i with hadef
  have hfsi : a'.storage_indices = a.storage_indices.set i (sc : Int) := rfl
  have hfci : a'.compressed_indices =
      (a.compressed_indices.set (sc + 1) (cval a sc)).set sc (-(cval a sc + 1)) := rfl
  have hfct : a'.storage_count = sc + 1 := rfl
  have hfv : a'.values = a.values := rfl
  have hfsz : a'.size = a.size := rfl
  have hsilen : a.storage_indices.length = m.length := h.hsil
  have hcilen : a.compressed_indices.length = m.length + 1 := h.hcil
  have hsi_self : siAt a' i = (sc : Int) := by
    rw [siAt, hfsi]; exact getD_set_self _ i _ 0 (by omega)
  have hsi_ne : ∀ j, j ≠ i → siAt a' j = siAt a j := by
    intro j hne
    rw [siAt, hfsi, getD_set_ne _ i j _ 0 (fun e => hne e.symm)]; rfl
  have hc_sc : cval a' sc = -(P + 1) := by
    rw [cval, hfci, htailP]
    exact getD_set_self _ sc _ 0 (by simp [List.length_set]; omega)
  have hc_sc1 : cval a' (sc + 1) = P := by
    rw [cval, hfci, htailP, getD_set_ne _ sc (sc + 1) _ 0 (by omega)]
    exact getD_set_self _ (sc + 1) _ 0 (by omega)
  have hc_ne : ∀ j, j ≠ sc → j ≠ sc + 1 → cval a' j = cval a j := by
    intro j h1 h2
    rw [cval, hfci, getD_set_ne _ sc j _ 0 (fun e => h1 e.symm),
      getD_set_ne _ (sc + 1) j _ 0 (fun e => h2 e.symm)]; rfl
  have hoff : ∀ j, j ≤ sc → offAt a' j = offAt a j := by
    intro j hj
    rcases Nat.eq_or_lt_of_le hj with he | hlt
    · subst he
      rw [offAt, offAt, hc_sc, htailP, if_pos (by omega), if_neg (by omega)]
      omega
    · rw [offAt, offAt, hc_ne j (by omega) (by omega)]
  have hoff_sc1 : offAt a' (sc + 1) = P := by
    rw [offAt, hc_sc1, if_neg (by omega)]
  have hlen' : (m.set i Row.Null).length = m.length := by simp
  refine ⟨?_, ?_, ?_, ?_, ?_, ?_, ?_, ?_, ?_, ?_, ?_⟩
  · rw [hfsz, hlen', h.hsz]
  · rw [hfsi, hlen']; simp [hsilen]
  · rw [hfci, hlen']; simp [hcilen]
  · rw [hfct, assignedCount_set m i .Null hu (by simp) hi, hscdef, h.hcnt]
  · intro j hj
    rw [hlen'] at hj
    by_cases e : j = i
    · subst e
      rw [rowAt_set_self m j .Null hj, hsi_self]
      constructor
      · intro hcon; exact absurd hcon (by simp)
      · intro hcon; exact absurd hcon (by omega)
    · rw [rowAt_set_ne m i j .Null (fun x => e x.symm), hsi_ne j e]
      exact h.hunset j hj
  · intro j hj hne
    rw [hlen'] at hj
    rw [hfct]
    by_cases e : j = i
    · subst e
      rw [hsi_self]
      constructor
      · omega
      · omega
    · rw [hsi_ne j e]
      rw [rowAt_set_ne m i j .Null (fun x => e x.symm)] at hne
      have := h.hslot j hj hne
      constructor
      · exact this.1
      · omega
  · intro j1 hj1 j2 hj2 hne1 hne2 heq
    rw [hlen'] at hj1 hj2
    by_cases e1 : j1 = i <;> by_cases e2 : j2 = i
    · rw [e1, e2]
    · exfalso
      rw [e1, hsi_self, hsi_ne j2 e2] at heq
      rw [rowAt_set_ne m i j2 .Null (fun x => e2 x.symm)] at hne2
      have := h.hslot j2 hj2 hne2
      omega
    · exfalso
      rw [e2, hsi_ne j1 e1, hsi_self] at heq
      rw [rowAt_set_ne m i j1 .Null (fun x => e1 x.symm)] at hne1
      have := h.hslot j1 hj1 hne1
      omega
    · rw [hsi_ne j1 e1, hsi_ne j2 e2] at heq
      rw [rowAt_set_ne m i j1 .Null (fun x => e1 x.symm)] at hne1
      rw [rowAt_set_ne m i j2 .Null (fun x => e2 x.symm)] at hne2
      exact h.hinj j1 hj1 j2 hj2 hne1 hne2 heq
  · intro j hj
    rw [hfct] at hj
    rcases Nat.lt_or_ge j sc with hlt | hge
    · rw [hoff j (by omega), hoff (j + 1) (by omega)]
      exact h.hmono j hlt
    · have hjsc : j = sc := by omega
      rw [hjsc, hoff sc (le_refl sc), hoff_sc1, offAt, htailP, if_neg (by omega)]
  · rw [hfct, hc_sc1, hPdef]
    have := valueCount_set m i .Null hu hi
    rw [this]
    simp [vlen]
  · rw [hfv]
    have := valueCount_set m i .Null hu hi
    rw [this]
    simpa [vlen] using h.hcap
  · intro j hj
    rw [hlen'] at hj
    by_cases e : j = i
    · subst e
      rw [unsafeGetitem_eq, hsi_self, if_neg (by omega), rowAt_set_self m j .Null hj]
      have : ((sc : Int)).toNat = sc := Int.toNat_natCast sc
      rw [this, hc_sc, if_pos (by omega)]
    · rw [rowAt_set_ne m i j .Null (fun x => e x.symm), ← h.hget j hj,
        unsafeGetitem_eq, unsafeGetitem_eq, hsi_ne j e]
      by_cases hun : siAt a j = -1
      · rw [if_pos hun, if_pos hun]
      · rw [if_neg hun, if_neg hun]
        have hne : rowAt m j ≠ .Unset := fun x => hun ((h.hunset j hj).mp x)
        have hs := h.hslot j hj hne
        have hsnat : (siAt a j).toNat < sc := by omega
        rw [hc_ne (siAt a j).toNat (by omega) (by omega),
          hoff ((siAt a j).toNat + 1) (by omega), hfv]

/-- Reduction of `_unsafe_setitem` when the capacity assert holds. -/
theorem unsafeSetitem_pos (a : JaggedArray) (i : Nat) (vs : List Int)
    (hcond : cval a a.storage_count + (vs.length : Int) ≤ (a.values.length : Int)) :
    unsafeSetitem a i vs =
      ({ a with
         storage_indices := a.storage_indices.set i (a.storage_count : Int)
         compressed_indices :=
           a.compressed_indices.set (a.storage_count + 1)
             (cval a a.storage_count + (vs.length : Int))
         values := pySplice a.values (cval a a.storage_count).toNat vs
         storage_count := a.storage_count + 1 }, none) := by
  simp only [unsafeSetitem]
  split
  · rfl
  · next hneg => exact absurd hcond hneg

/-- Reduction of `_unsafe_setitem` when the capacity assert fails: the
exception propagates with `storage_indices[index]` already overwritten. -/
theorem unsafeSetitem_neg (a : JaggedArray) (i : Nat) (vs : List Int)
    (hcond : ¬ cval a a.storage_count + (vs.length : Int) ≤ (a.values.length : Int)) :
    unsafeSetitem a i vs =
      ({ a with storage_indices := a.storage_indices.set i (a.storage_count : Int) },
        some .CapacityExceeded) := by
  simp only [unsafeSetitem]
  split
  · next hpos => exact absurd hpos hcond
  · rfl

/-- `_unsafe_setitem` on a well-formed store at a still-unset index, with
room left in the buffer: the capacity assert passes, well-formedness is
preserved with the represented row becoming `Values vs`, and the buffer
keeps its length. -/
theorem WF_setitem (a : JaggedArray) (m : List Row) (h : WF a m) (i : Nat)
    (hi : i < m.length) (hu : rowAt m i = .Unset) (vs : List Int)
    (hroom : valueCount m + vs.length ≤ a.values.length) :
    (unsafeSetitem a i vs).2 = none ∧
    WF (unsafeSetitem a i vs).1 (m.set i (.Values vs)) ∧
    (unsafeSetitem a i vs).1.values.length = a.values.length := by
  set sc := a.storage_count with hscdef
  have hsc : sc < m.length := h.count_lt i hi hu
  have htailP : cval a sc = (valueCount m : Int) := h.htail
  have hcond : cval a sc + (vs.length : Int) ≤ (a.values.length : Int) := by
    rw [htailP]; push_cast; omega
  have hr := unsafeSetitem_pos a i vs hcond
  have hPtoNat : (cval a sc).toNat = valueCount m := by rw [htailP]; exact Int.toNat_natCast _
  have hsilen : a.storage_indices.length = m.length := h.hsil
  have hcilen : a.compressed_indices.length = m.length + 1 := h.hcil
  set a' := (unsafeSetitem a i vs).1 with hadef
  have hfsi : a'.storage_indices = a.storage_indices.set i (sc : Int) := by rw [hadef, hr]
  have hfci : a'.compressed_indices =
      a.compressed_indices.set (sc + 1) (cval a sc + (vs.length : Int)) := by rw [hadef, hr]
  have hfct : a'.storage_count = sc + 1 := by rw [hadef, hr]
  have hfv : a'.values = pySplice a.values (valueCount m) vs := by rw [hadef, hr, hPtoNat]
  have hfsz : a'.size = a.size := by rw [hadef, hr]
  have hvlen' : a'.values.length = a.values.length := by
    rw [hfv]; exact splice_length a.values vs (valueCount m) hroom
  have hsi_self : siAt a' i = (sc : Int) := by
    rw [siAt, hfsi]; exact getD_set_self _ i _ 0 (by omega)
  have hsi_ne : ∀ j, j ≠ i → siAt a' j = siAt a j := by
    intro j hne
    rw [siAt, hfsi, getD_set_ne _ i j _ 0 (fun e => hne e.symm)]; rfl
  have hc_sc1 : cval a' (sc + 1) = (valueCount m : Int) + (vs.length : Int) := by
    rw [cval, hfci, htailP]
    exact getD_set_self _ (sc + 1) _ 0 (by omega)
  have hc_ne : ∀ j, j ≠ sc + 1 → cval a' j = cval a j := by
    intro j h1
    rw [cval, hfci, getD_set_ne _ (sc + 1) j _ 0 (fun e => h1 e.symm)]; rfl
  have hoff : ∀ j, j ≤ sc → offAt a' j = offAt a j := by
    intro j hj
    rw [offAt, offAt, hc_ne j (by omega)]
  have hoff_sc1 : offAt a' (sc + 1) = (valueCount m : Int) + (vs.length : Int) := by
    rw [offAt, hc_sc1, if_neg (by push_cast; omega)]
  have hoffP : offAt a sc = (valueCount m : Int) := by
    rw [offAt, htailP, if_neg (by push_cast; omega)]
  have htake : ∀ e : Int, e ≤ (valueCount m : Int) →
      a'.values.take e.toNat = a.values.take e.toNat := by
    intro e he
    rw [hfv]
    exact splice_take a.values vs (valueCount m) e.toNat
      (by have := Int.toNat_le_toNat he; simpa using this) (by omega)
  have hlen' : (m.set i (Row.Values vs)).length = m.length := by simp
  refine ⟨by rw [hr], ⟨?_, ?_, ?_, ?_, ?_, ?_, ?_, ?_, ?_, ?_, ?_⟩, hvlen'⟩
  · rw [hfsz, hlen', h.hsz]
  · rw [hfsi, hlen']; simp [hsilen]
  · rw [hfci, hlen']; simp [hcilen]
  · rw [hfct, assignedCount_set m i (.Values vs) hu (by simp) hi, hscdef, h.hcnt]
  · intro j hj
    rw [hlen'] at hj
    by_cases e : j = i
    · rw [e, rowAt_set_self m i (.Values vs) hi, hsi_self]
      constructor
      · intro hcon; exact absurd hcon (by simp)
      · intro hcon; exact absurd hcon (by omega)
    · rw [rowAt_set_ne m i j (.Values vs) (fun x => e x.symm), hsi_ne j e]
      exact h.hunset j hj
  · intro j hj hne
    rw [hlen'] at hj
    rw [hfct]
    by_cases e : j = i
    · rw [e, hsi_self]
      constructor
      · omega
      · omega
    · rw [hsi_ne j e]
      rw [rowAt_set_ne m i j (.Values vs) (fun x => e x.symm)] at hne
      have := h.hslot j hj hne
      constructor
      · exact this.1
      · omega
  · intro j1 hj1 j2 hj2 hne1 hne2 heq
    rw [hlen'] at hj1 hj2
    by_cases e1 : j1 = i <;> by_cases e2 : j2 = i
    · rw [e1, e2]
    · exfalso
      rw [e1, hsi_self, hsi_ne j2 e2] at heq
      rw [rowAt_set_ne m i j2 (.Values vs) (fun x => e2 x.symm)] at hne2
      have := h.hslot j2 hj2 hne2
      omega
    · exfalso
      rw [e2, hsi_ne j1 e1, hsi_self] at heq
      rw [rowAt_set_ne m i j1 (.Values vs) (fun x => e1 x.symm)] at hne1
      have := h.hslot j1 hj1 hne1
      omega
    · rw [hsi_ne j1 e1, hsi_ne j2 e2] at heq
      rw [rowAt_set_ne m i j1 (.Values vs) (fun x => e1 x.symm)] at hne1
      rw [rowAt_set_ne m i j2 (.Values vs) (fun x => e2 x.symm)] at hne2
      exact h.hinj j1 hj1 j2 hj2 hne1 hne2 heq
  · intro j hj
    rw [hfct] at hj
    rcases Nat.lt_or_ge j sc with hlt | hge
    · rw [hoff j (by omega), hoff (j + 1) (by omega)]
      exact h.hmono j hlt
    · have hjsc : j = sc := by omega
      rw [hjsc, hoff sc (le_refl sc), hoffP, hoff_sc1]
      push_cast
      omega
  · rw [hfct, hc_sc1, valueCount_set m i (.Values vs) hu hi]
    push_cast
    simp [vlen]
  · rw [hvlen', valueCount_set m i (.Values vs) hu hi]
    push_cast
    simp only [vlen]
    omega
  · intro j hj
    rw [hlen'] at hj
    by_cases e : j = i
    · rw [e, unsafeGetitem_eq, hsi_self, if_neg (by omega),
        rowAt_set_self m i (.Values vs) hi, Int.toNat_natCast]
      have hc_sc : cval a' sc = (valueCount m : Int) := by
        rw [hc_ne sc (by omega), htailP]
      rw [hc_sc, if_neg (by push_cast; omega), hoff_sc1]
      congr 1
      rw [pySlice, hfv]
      have htn : ((valueCount m : Int) + (vs.length : Int)).toNat
          = valueCount m + vs.length := by omega
      rw [htn, Int.toNat_natCast]
      exact splice_read a.values vs (valueCount m) hroom
    · rw [rowAt_set_ne m i j (.Values vs) (fun x => e x.symm), ← h.hget j hj,
        unsafeGetitem_eq, unsafeGetitem_eq, hsi_ne j e]
      by_cases hun : siAt a j = -1
      · rw [if_pos hun, if_pos hun]
      · rw [if_neg hun, if_neg hun]
        have hne : rowAt m j ≠ .Unset := fun x => hun ((h.hunset j hj).mp x)
        have hs := h.hslot j hj hne
        have hsnat : (siAt a j).toNat < sc := by omega
        rw [hc_ne (siAt a j).toNat (by omega), hoff ((siAt a j).toNat + 1) (by omega)]
        by_cases hptr : cval a (siAt a j).toNat < 0
        · rw [if_pos hptr, if_pos hptr]
        · rw [if_neg hptr, if_neg hptr]
          congr 1
          rw [pySlice, pySlice]
          have hE : offAt a ((siAt a j).toNat + 1) ≤ (valueCount m : Int) := by
            have := offAt_chain a h.hmono ((siAt a j).toNat + 1) sc (by omega) (le_refl sc)
            rw [hoffP] at this
            exact this
          rw [htake _ hE]

theorem rowAt_eq_getElem (m : List Row) (i : Nat) (h : i < m.length) :
    rowAt m i = m[i] := by
  rw [rowAt, List.getD_eq_getElem?_getD, List.getElem?_eq_getElem h]
  rfl

/-- On a well-formed store, `tolist` returns exactly the represented rows. -/
theorem WF_tolist (a : JaggedArray) (m : List Row) (h : WF a m) : tolist a = m := by
  rw [tolist, h.hsz]
  apply List.ext_getElem (by simp)
  intro i h1 h2
  simp only [List.getElem_map, List.getElem_range]
  rw [h.hget i (by simpa using h2), rowAt_eq_getElem m i (by simpa using h2)]

/-- `pyGetI` at an in-range nonnegative index reads `storage_indices[i]`. -/
theorem pyGetI_nat (a : JaggedArray) (i : Nat) (hi : i < a.storage_indices.length) :
    pyGetI a.storage_indices (i : Int) = some (siAt a i) := by
  rw [pyGetI, if_pos (by omega), if_pos (by push_cast; omega), Int.toNat_natCast]
  rfl

/-- `__setitem__` at an in-range, still-unset logical index: both asserts
pass and the call dispatches on the row. -/
theorem setitem_unset (a : JaggedArray) (m : List Row) (h : WF a m) (i : Nat)
    (hi : i < m.length) (hu : rowAt m i = .Unset) (row : Row) :
    setitem a (i : Int) row =
      (match row with
       | .Null => (unsafeSetnull a i, none)
       | .Values vs => unsafeSetitem a i vs
       | .Unset => (a, some .NameError)) := by
  have hnorm : normIdx a (i : Int) = (i : Int) := by rw [normIdx, if_neg (by omega)]
  have hsv : pyGetI a.storage_indices (i : Int) = some (siAt a i) :=
    pyGetI_nat a i (by rw [h.hsil]; omega)
  have hsiu : siAt a i = -1 := (h.hunset i hi).mp hu
  have hsize : (i : Int) < (a.size : Int) := by rw [h.hsz]; push_cast; omega
  simp only [setitem, hnorm, hsv]
  rw [if_pos hsiu, if_pos ⟨by omega, hsize⟩, Int.toNat_natCast]

/-- `__setitem__` at an in-range logical index that is already assigned:
the duplicate assert fires first, whatever the row, and the store is
untouched. -/
theorem setitem_assigned (a : JaggedArray) (m : List Row) (h : WF a m) (i : Nat)
    (hi : i < m.length) (hs : rowAt m i ≠ .Unset) (row : Row) :
    setitem a (i : Int) row = (a, some .DuplicateAssignment) := by
  have hnorm : normIdx a (i : Int) = (i : Int) := by rw [normIdx, if_neg (by omega)]
  have hsv : pyGetI a.storage_indices (i : Int) = some (siAt a i) :=
    pyGetI_nat a i (by rw [h.hsil]; omega)
  have hsid : siAt a i ≠ -1 := fun x => hs ((h.hunset i hi).mpr x)
  simp only [setitem, hnorm, hsv]
  rw [if_neg hsid]

/-- `__setitem__` when the normalized index falls outside `[0, n)`: the
store is untouched and the call fails — but the duplicate assert runs
before the bounds assert and reads `storage_indices[index]` with Python's
wrap-around, so a still-negative index whose wrapped slot is assigned
surfaces `DuplicateAssignment` instead of `IndexOutOfBounds`. -/
theorem setitem_oob (a : JaggedArray) (index : Int) (row : Row)
    (hlen : a.storage_indices.length = a.size)
    (hoob : ¬ (0 ≤ normIdx a index ∧ normIdx a index < (a.size : Int))) :
    setitem a index row =
      (a, some (if -(a.size : Int) ≤ normIdx a index ∧ normIdx a index < 0 ∧
           siAt a (normIdx a index + (a.size : Int)).toNat ≠ -1
         then .DuplicateAssignment else .IndexOutOfBounds)) := by
  set idx := normIdx a index with hidx
  rcases lt_or_ge idx 0 with hneg | hpos
  · by_cases hwrap : -(a.size : Int) ≤ idx
    · have hget : pyGetI a.storage_indices idx
          = some (siAt a (idx + (a.size : Int)).toNat) := by
        rw [pyGetI, if_neg (by omega), if_pos (by rw [hlen]; omega), hlen, siAt]
      by_cases hdup : siAt a (idx + (a.size : Int)).toNat = -1
      · simp only [setitem, ← hidx, hget]
        rw [if_pos hdup, if_neg (by omega), if_neg (by simp [hdup])]
      · simp only [setitem, ← hidx, hget]
        rw [if_neg hdup, if_pos ⟨hwrap, hneg, hdup⟩]
    · have hget : pyGetI a.storage_indices idx = none := by
        rw [pyGetI, if_neg (by omega), if_neg (by rw [hlen]; omega)]
      simp only [setitem, ← hidx, hget]
      rw [if_neg (fun hc => hwrap hc.1)]
  · have hge : (a.size : Int) ≤ idx := by omega
    have hget : pyGetI a.storage_indices idx = none := by
      rw [pyGetI, if_pos (by omega), if_neg (by rw [hlen]; omega)]
    simp only [setitem, ← hidx, hget]
    rw [if_neg (fun hc => absurd hc.2.1 (by omega))]

/-- The logical row list produced by a list of `(index, row)` assignments. -/
def applyOps (m : List Row) (ops : List (Nat × Row)) : List Row :=
  ops.foldl (fun acc p => acc.set p.1 p.2) m

/-- Total buffer elements the `Values` rows of an assignment list consume. -/
def opsVC : List (Nat × Row) → Nat
  | [] => 0
  | p :: t => vlen p.2 + opsVC t

/-- A store built by `JaggedArray(n, cap)` followed by one `set` call per
assignment, in list order. -/
def build (n cap : Nat) (ops : List (Nat × Row)) : JaggedArray :=
  ops.foldl (fun a p => (setitem a (p.1 : Int) p.2).1) (JaggedArray.new n cap)

theorem applyOps_cons (m : List Row) (p : Nat × Row) (t : List (Nat × Row)) :
    applyOps m (p :: t) = applyOps (m.set p.1 p.2) t := rfl

theorem opsVC_cons (p : Nat × Row) (t : List (Nat × Row)) :
    opsVC (p :: t) = vlen p.2 + opsVC t := rfl

/-- Folding `set` calls for pairwise-distinct, in-range, still-unset indices
over a well-formed store preserves well-formedness, the represented rows
accumulating the assignments; the buffer length never changes. -/
theorem build_fold_WF (ops : List (Nat × Row)) (a : JaggedArray) (m : List Row)
    (h : WF a m)
    (hin : ∀ p ∈ ops, p.1 < m.length ∧ rowAt m p.1 = .Unset)
    (hdis : ops.Pairwise (fun p q => p.1 ≠ q.1))
    (hcap : valueCount m + opsVC ops ≤ a.values.length) :
    WF (ops.foldl (fun b p => (setitem b (p.1 : Int) p.2).1) a) (applyOps m ops) ∧
    (ops.foldl (fun b p => (setitem b (p.1 : Int) p.2).1) a).values.length
      = a.values.length := by
  induction ops generalizing a m with
  | nil => exact ⟨h, rfl⟩
  | cons p t ih =>
    obtain ⟨hp1, hp2⟩ := hin p (by simp)
    obtain ⟨hhead, htail⟩ := List.pairwise_cons.mp hdis
    have hin' : ∀ q ∈ t, q.1 < (m.set p.1 p.2).length ∧
        rowAt (m.set p.1 p.2) q.1 = .Unset := by
      intro q hq
      obtain ⟨hq1, hq2⟩ := hin q (by simp [hq])
      exact ⟨by simpa using hq1,
        by rw [rowAt_set_ne m p.1 q.1 p.2 (hhead q hq)]; exact hq2⟩
    rw [opsVC_cons] at hcap
    rw [applyOps_cons, List.foldl_cons]
    cases hrow : p.2 with
    | Unset =>
      rw [hrow] at hin' hcap
      have hstep : setitem a (p.1 : Int) Row.Unset = (a, some .NameError) :=
        setitem_unset a m h p.1 hp1 hp2 .Unset
      have hm : m.set p.1 Row.Unset = m := by
        have hx : Row.Unset = m.getD p.1 .Unset := hp2.symm
        rw [hx]
        exact set_getD_self m p.1 .Unset hp1
      rw [hstep, hm]
      rw [hm] at hin'
      exact ih a m h hin' htail (by simp [vlen] at hcap; omega)
    | Null =>
      rw [hrow] at hin' hcap
      have hstep : setitem a (p.1 : Int) Row.Null = (unsafeSetnull a p.1, none) :=
        setitem_unset a m h p.1 hp1 hp2 .Null
      have hWF := WF_setnull a m h p.1 hp1 hp2
      rw [hstep]
      have hvc : valueCount (m.set p.1 Row.Null) = valueCount m := by
        rw [valueCount_set m p.1 .Null hp2 hp1]; simp [vlen]
      have hv : (unsafeSetnull a p.1).values = a.values := rfl
      refine ih (unsafeSetnull a p.1) (m.set p.1 Row.Null) hWF hin' htail ?_ |>.imp id ?_
      · rw [hvc, hv]
        simp [vlen] at hcap
        omega
      · intro hx
        rw [hx, hv]
    | Values vs =>
      rw [hrow] at hin' hcap
      have hstep : setitem a (p.1 : Int) (Row.Values vs) = unsafeSetitem a p.1 vs :=
        setitem_unset a m h p.1 hp1 hp2 (.Values vs)
      have hvcap : valueCount m + vs.length ≤ a.values.length := by
        simp [vlen] at hcap
        omega
      obtain ⟨hnone, hWF, hvl⟩ := WF_setitem a m h p.1 hp1 hp2 vs hvcap
      rw [hstep]
      have hvc : valueCount (m.set p.1 (Row.Values vs))
          = valueCount m + vs.length := by
        rw [valueCount_set m p.1 (.Values vs) hp2 hp1]; rfl
      refine ih (unsafeSetitem a p.1 vs).1 (m.set p.1 (Row.Values vs)) hWF
        hin' htail ?_ |>.imp id ?_
      · rw [hvc, hvl]
        simp [vlen] at hcap
        omega
      · intro hx
        rw [hx, hvl]

theorem applyOps_rowAt_not_mem (m : List Row) (ops : List (Nat × Row)) (i : Nat)
    (h : ∀ q ∈ ops, q.1 ≠ i) : rowAt (applyOps m ops) i = rowAt m i := by
  induction ops generalizing m with
  | nil => rfl
  | cons p t ih =>
    rw [applyOps_cons, ih _ (fun q hq => h q (by simp [hq])),
      rowAt_set_ne m p.1 i p.2 (h p (by simp))]

theorem applyOps_rowAt_of_mem (m : List Row) (ops : List (Nat × Row))
    (hdis : ops.Pairwise (fun p q => p.1 ≠ q.1)) (p : Nat × Row) (hp : p ∈ ops)
    (hlen : p.1 < m.length) : rowAt (applyOps m ops) p.1 = p.2 := by
  induction ops generalizing m with
  | nil => cases hp
  | cons q t ih =>
    obtain ⟨hhead, htail⟩ := List.pairwise_cons.mp hdis
    rcases List.mem_cons.mp hp with he | hm2
    · rw [applyOps_cons,
        applyOps_rowAt_not_mem _ t p.1 (fun r hr x => hhead r hr (he ▸ x.symm)), he,
        rowAt_set_self m q.1 q.2 (he ▸ hlen)]
    · rw [applyOps_cons]
      exact ih (m.set q.1 q.2) htail hm2 (by simpa using hlen)

theorem pairwise_fst_inj {ops : List (Nat × Row)}
    (hdis : ops.Pairwise (fun p q => p.1 ≠ q.1)) :
    ∀ x ∈ ops, ∀ y ∈ ops, x.1 = y.1 → x = y := by
  induction ops with
  | nil => intro x hx; cases hx
  | cons p t ih =>
    obtain ⟨hhead, htail⟩ := List.pairwise_cons.mp hdis
    intro x hx y hy hfst
    rcases List.mem_cons.mp hx with he | hx2 <;> rcases List.mem_cons.mp hy with hf | hy2
    · rw [he, hf]
    · exact absurd (he ▸ hfst) (hhead y hy2)
    · exact absurd (hf ▸ hfst.symm) (hhead x hx2)
    · exact ih htail x hx2 y hy2 hfst

/-- Applying pairwise-distinct assignments commutes: the same logical rows
arise from any permutation of the assignment order. -/
theorem applyOps_perm (m : List Row) (ops ops' : List (Nat × Row))
    (hperm : ops.Perm ops')
    (hdis : ops.Pairwise (fun p q => p.1 ≠ q.1)) :
    applyOps m ops = applyOps m ops' := by
  have comm : ∀ x ∈ ops, ∀ y ∈ ops, ∀ z : List Row,
      (z.set x.1 x.2).set y.1 y.2 = (z.set y.1 y.2).set x.1 x.2 := by
    intro x hx y hy z
    by_cases hf : x.1 = y.1
    · rw [pairwise_fst_inj hdis x hx y hy hf]
    · exact List.set_comm x.2 y.2 z hf
  exact hperm.foldl_eq' comm m

theorem opsVC_eq_sum (ops : List (Nat × Row)) :
    opsVC ops = (ops.map (fun p => vlen p.2)).sum := by
  induction ops with
  | nil => rfl
  | cons p t ih => simp [opsVC_cons, ih]

theorem opsVC_perm (ops ops' : List (Nat × Row)) (hperm : ops.Perm ops') :
    opsVC ops = opsVC ops' := by
  rw [opsVC_eq_sum, opsVC_eq_sum]
  exact (hperm.map _).sum_eq

/-- An assignment list whose indices are a permutation of `range n` has
pairwise-distinct, in-range indices. -/
theorem ops_facts (n : Nat) (ops : List (Nat × Row))
    (hidx : (ops.map Prod.fst).Perm (List.range n)) :
    ops.Pairwise (fun p q => p.1 ≠ q.1) ∧ ∀ p ∈ ops, p.1 < n := by
  constructor
  · have hnd : (ops.map Prod.fst).Nodup := hidx.nodup_iff.mpr (List.nodup_range n)
    exact List.pairwise_map.mp hnd
  · intro p hp
    have h1 : p.1 ∈ ops.map Prod.fst := List.mem_map_of_mem Prod.fst hp
    exact List.mem_range.mp (hidx.mem_iff.mp h1)

/-- C1: a store of size `n` built by `set` calls on pairwise-distinct
in-range logical indices with `Null` or `Values` rows (total payload within
capacity), in any insertion order, satisfies: `tolist` returns the assigned
row at every assigned logical index and `Unset` at every untouched one —
so a build that covers every index `0..n-1` exactly once reproduces the
assignments in logical order — and, for a fixed set of assignments whether
it covers all indices or only some, every permutation of the order in which
`set` is applied yields the same `tolist` result. -/
theorem C1_set_roundtrip_permutation (n cap : Nat) (ops ops' : List (Nat × Row))
    (hperm : ops.Perm ops')
    (hdis : (ops.map Prod.fst).Nodup)
    (hbnd : ∀ p ∈ ops, p.1 < n)
    (hrow : ∀ p ∈ ops, p.2 ≠ .Unset)
    (hcap : opsVC ops ≤ cap) :
    (∀ p ∈ ops, rowAt (tolist (build n cap ops)) p.1 = p.2) ∧
    (∀ i, i < n → (∀ p ∈ ops, p.1 ≠ i) →
      rowAt (tolist (build n cap ops)) i = .Unset) ∧
    tolist (build n cap ops') = tolist (build n cap ops) := by
  have hdisP : ops.Pairwise (fun p q => p.1 ≠ q.1) := List.pairwise_map.mp hdis
  have hdisN : (ops'.map Prod.fst).Nodup := (hperm.map Prod.fst).nodup_iff.mp hdis
  have hdisP' : ops'.Pairwise (fun p q => p.1 ≠ q.1) := List.pairwise_map.mp hdisN
  have hbnd' : ∀ p ∈ ops', p.1 < n := fun p hp => hbnd p (hperm.mem_iff.mpr hp)
  have hm0 : ∀ p ∈ ops, p.1 < (List.replicate n Row.Unset).length ∧
      rowAt (List.replicate n Row.Unset) p.1 = .Unset := fun p hp =>
    ⟨by simpa using hbnd p hp, rowAt_replicate_unset n p.1 (hbnd p hp)⟩
  have hm0' : ∀ p ∈ ops', p.1 < (List.replicate n Row.Unset).length ∧
      rowAt (List.replicate n Row.Unset) p.1 = .Unset := fun p hp =>
    ⟨by simpa using hbnd' p hp, rowAt_replicate_unset n p.1 (hbnd' p hp)⟩
  have hvnew : (JaggedArray.new n cap).values.length = cap := by
    simp [JaggedArray.new]
  have hcap0 : valueCount (List.replicate n Row.Unset) + opsVC ops
      ≤ (JaggedArray.new n cap).values.length := by
    rw [valueCount_replicate_unset, hvnew]; omega
  have hcap0' : valueCount (List.replicate n Row.Unset) + opsVC ops'
      ≤ (JaggedArray.new n cap).values.length := by
    rw [valueCount_replicate_unset, hvnew, ← opsVC_perm ops ops' hperm]; omega
  have hb := build_fold_WF ops (JaggedArray.new n cap)
    (List.replicate n Row.Unset) (WF_new n cap) hm0 hdisP hcap0
  have hb' := build_fold_WF ops' (JaggedArray.new n cap)
    (List.replicate n Row.Unset) (WF_new n cap) hm0' hdisP' hcap0'
  have ht : tolist (build n cap ops) = applyOps (List.replicate n Row.Unset) ops :=
    WF_tolist _ _ hb.1
  have ht' : tolist (build n cap ops') = applyOps (List.replicate n Row.Unset) ops' :=
    WF_tolist _ _ hb'.1
  refine ⟨?_, ?_, ?_⟩
  · intro p hp
    rw [ht]
    exact applyOps_rowAt_of_mem _ ops hdisP p hp (by simpa using hbnd p hp)
  · intro i hi hnot
    rw [ht, applyOps_rowAt_not_mem _ ops i hnot]
    exact rowAt_replicate_unset n i hi
  · rw [ht, ht', applyOps_perm (List.replicate n Row.Unset) ops ops' hperm hdisP]

/-- Witness for C1 at a concrete input: a partial assignment set (indices 2
and 0 of a size-4 store, index 1 and 3 untouched) applied in both orders. -/
theorem C1_witness :
    (∀ p ∈ [((2 : Nat), Row.Values [5, 6]), ((0 : Nat), Row.Null)],
      rowAt (tolist (build 4 3 [((2 : Nat), Row.Values [5, 6]), ((0 : Nat), Row.Null)])) p.1 = p.2) ∧
    (∀ i, i < 4 → (∀ p ∈ [((2 : Nat), Row.Values [5, 6]), ((0 : Nat), Row.Null)], p.1 ≠ i) →
      rowAt (tolist (build 4 3 [((2 : Nat), Row.Values [5, 6]), ((0 : Nat), Row.Null)])) i = .Unset) ∧
    tolist (build 4 3 [((0 : Nat), Row.Null), ((2 : Nat), Row.Values [5, 6])])
      = tolist (build 4 3 [((2 : Nat), Row.Values [5, 6]), ((0 : Nat), Row.Null)]) :=
  C1_set_roundtrip_permutation 4 3
    [((2 : Nat), Row.Values [5, 6]), ((0 : Nat), Row.Null)]
    [((0 : Nat), Row.Null), ((2 : Nat), Row.Values [5, 6])]
    (by decide) (by decide) (by decide) (by decide) (by decide)

theorem set_rowAt_self (m : List Row) (i : Nat) (h : i < m.length) :
    m.set i (rowAt m i) = m := set_getD_self m i .Unset h

theorem fill_id (r : Row) (h : r ≠ .Unset) : fill r = r := by
  cases r with
  | Unset => exact absurd rfl h
  | Null => rfl
  | Values vs => rfl

/-- The row list `m` with its first `k` rows resolved by `fill`. -/
def fillUpTo (k : Nat) (m : List Row) : List Row :=
  (m.take k).map fill ++ m.drop k

theorem fillUpTo_zero (m : List Row) : fillUpTo 0 m = m := by
  simp [fillUpTo]

theorem fillUpTo_length (k : Nat) (m : List Row) :
    (fillUpTo k m).length = m.length := by
  simp [fillUpTo]
  omega

theorem fillUpTo_all (m : List Row) : fillUpTo m.length m = m.map fill := by
  simp [fillUpTo]

theorem fillUpTo_rowAt_ge (m : List Row) (k i : Nat) (h : k ≤ i) :
    rowAt (fillUpTo k m) i = rowAt m i := by
  induction m generalizing k i with
  | nil => simp [fillUpTo]
  | cons x t ih =>
    cases k with
    | zero => simp [fillUpTo]
    | succ q =>
      cases i with
      | zero => omega
      | succ j =>
        have := ih q j (by omega)
        simpa [fillUpTo, List.take_succ_cons, List.drop_succ_cons, rowAt,
          List.getD_cons_succ] using this

theorem fillUpTo_succ (m : List Row) (k : Nat) (hk : k < m.length) :
    fillUpTo (k + 1) m = (fillUpTo k m).set k (fill (rowAt m k)) := by
  induction m generalizing k with
  | nil => simp at hk
  | cons x t ih =>
    cases k with
    | zero => simp [fillUpTo, rowAt]
    | succ q =>
      have := ih q (by simpa using hk)
      simpa [fillUpTo, List.take_succ_cons, List.drop_succ_cons, rowAt,
        List.getD_cons_succ] using this

/-- `finalize` on a well-formed store resolves exactly the unset rows to
null and preserves well-formedness. -/
theorem WF_finalize (a : JaggedArray) (m : List Row) (h : WF a m) :
    WF (finalize a) (m.map fill) := by
  have hL : a.storage_indices.length = m.length := h.hsil
  have key : ∀ k, k ≤ m.length →
      WF ((List.range k).foldl
        (fun b index => if siAt b index = -1 then unsafeSetnull b index else b) a)
        (fillUpTo k m) := by
    intro k
    induction k with
    | zero => intro _; simpa [fillUpTo_zero] using h
    | succ q ih =>
      intro hq
      have hb := ih (by omega)
      rw [List.range_succ, List.foldl_append, List.foldl_cons, List.foldl_nil]
      have hlen2 : (fillUpTo q m).length = m.length := fillUpTo_length q m
      have hrq : rowAt (fillUpTo q m) q = rowAt m q := fillUpTo_rowAt_ge m q q (le_refl q)
      by_cases hc : siAt ((List.range q).foldl
          (fun b index => if siAt b index = -1 then unsafeSetnull b index else b) a) q = -1
      · rw [if_pos hc]
        have hun : rowAt (fillUpTo q m) q = .Unset := (hb.hunset q (by omega)).mpr hc
        have hmq : rowAt m q = .Unset := by rw [← hrq]; exact hun
        rw [fillUpTo_succ m q (by omega), hmq]
        exact WF_setnull _ _ hb q (by omega) hun
      · rw [if_neg hc]
        have hnun : rowAt (fillUpTo q m) q ≠ .Unset := fun x => hc ((hb.hunset q (by omega)).mp x)
        rw [fillUpTo_succ m q (by omega)]
        have hfid : fill (rowAt m q) = rowAt (fillUpTo q m) q := by
          rw [hrq]
          exact fill_id (rowAt m q) (by rw [← hrq]; exact hnun)
        rw [hfid, set_rowAt_self _ q (by omega)]
        exact hb
  have hfin := key m.length (le_refl _)
  rw [fillUpTo_all] at hfin
  rw [finalize, hL]
  exact hfin

theorem finfold_len (l : List Nat) (a : JaggedArray) :
    ((l.foldl (fun b index => if siAt b index = -1 then unsafeSetnull b index else b)
      a).storage_indices.length) = a.storage_indices.length := by
  induction l generalizing a with
  | nil => rfl
  | cons x t ih =>
    rw [List.foldl_cons, ih]
    split
    · simp [unsafeSetnull]
    · rfl

/-- After the `finalize` loop has visited positions `0..k`, none of them is
`-1` any more. -/
theorem finalize_assigned (a : JaggedArray) :
    ∀ k, ∀ i, i < k → k ≤ a.storage_indices.length →
    siAt ((List.range k).foldl
      (fun b index => if siAt b index = -1 then unsafeSetnull b index else b) a) i ≠ -1 := by
  intro k
  induction k with
  | zero => intro i hi _; omega
  | succ q ih =>
    intro i hi hk
    rw [List.range_succ, List.foldl_append, List.foldl_cons, List.foldl_nil]
    have hBlen : ((List.range q).foldl
        (fun b index => if siAt b index = -1 then unsafeSetnull b index else b)
        a).storage_indices.length = a.storage_indices.length := finfold_len _ a
    by_cases hc : siAt ((List.range q).foldl
        (fun b index => if siAt b index = -1 then unsafeSetnull b index else b) a) q = -1
    · rw [if_pos hc]
      rcases Nat.lt_or_ge i q with hlt | hge
      · have hne : siAt (unsafeSetnull ((List.range q).foldl
            (fun b index => if siAt b index = -1 then unsafeSetnull b index else b) a) q) i
            = siAt ((List.range q).foldl
              (fun b index => if siAt b index = -1 then unsafeSetnull b index else b) a) i := by
          rw [siAt]
          exact getD_set_ne _ q i _ 0 (by omega)
        rw [hne]
        exact ih i hlt (by omega)
      · have hiq : i = q := by omega
        rw [hiq]
        have hset : siAt (unsafeSetnull ((List.range q).foldl
            (fun b index => if siAt b index = -1 then unsafeSetnull b index else b) a) q) q
            = (((List.range q).foldl
              (fun b index => if siAt b index = -1 then unsafeSetnull b index else b)
              a).storage_count : Int) := by
          rw [siAt]
          exact getD_set_self _ q _ 0 (by omega)
        rw [hset]
        omega
    · rw [if_neg hc]
      rcases Nat.lt_or_ge i q with hlt | hge
      · exact ih i hlt (by omega)
      · have hiq : i = q := by omega
        rw [hiq]
        exact hc

/-- The `finalize` loop is a no-op on a store with no `-1` entries left. -/
theorem finalize_of_assigned (a : JaggedArray)
    (h : ∀ i, i < a.storage_indices.length → siAt a i ≠ -1) : finalize a = a := by
  rw [finalize]
  have key : ∀ k, k ≤ a.storage_indices.length →
      (List.range k).foldl
        (fun b index => if siAt b index = -1 then unsafeSetnull b index else b) a = a := by
    intro k
    induction k with
    | zero => intro _; rfl
    | succ q ih =>
      intro hk
      rw [List.range_succ, List.foldl_append, ih (by omega), List.foldl_cons,
        List.foldl_nil, if_neg (h q (by omega))]
  exact key _ (le_refl _)

/-- C6: `finalize()` twice in a row is the same store — the second call
touches only rows whose `storage_index` is still `-1` and there are none —
so in particular `to_sequence()` agrees with a single `finalize()`. -/
theorem C6_finalize_idempotent (a : JaggedArray) :
    finalize (finalize a) = finalize a ∧
    tolist (finalize (finalize a)) = tolist (finalize a) := by
  have h1 : finalize (finalize a) = finalize a := by
    apply finalize_of_assigned
    intro i hi
    have hlen : (finalize a).storage_indices.length = a.storage_indices.length :=
      finfold_len _ a
    rw [hlen] at hi
    exact finalize_assigned a a.storage_indices.length i hi (le_refl _)
  exact ⟨h1, by rw [h1]⟩

theorem valueCount_append (l1 l2 : List Row) :
    valueCount (l1 ++ l2) = valueCount l1 + valueCount l2 := by
  induction l1 with
  | nil => simp [valueCount]
  | cons x t ih => simp [valueCount, ih]; omega

theorem valueCount_map_fill (m : List Row) :
    valueCount (m.map fill) = valueCount m := by
  induction m with
  | nil => rfl
  | cons x t ih => simp [valueCount, ih, vlen_fill]

theorem valueCount_take_succ (t : List Row) (k : Nat) (hk : k < t.length) :
    valueCount (t.take (k + 1)) = valueCount (t.take k) + vlen (rowAt t k) := by
  induction t generalizing k with
  | nil => simp at hk
  | cons x s ih =>
    cases k with
    | zero => simp [valueCount, rowAt]
    | succ q =>
      have := ih q (by simpa using hk)
      simp only [List.take_succ_cons, valueCount, rowAt, List.getD_cons_succ] at this ⊢
      rw [this]
      omega

theorem valueCount_take_le (t : List Row) (k : Nat) :
    valueCount (t.take k) ≤ valueCount t := by
  induction t generalizing k with
  | nil => simp [valueCount]
  | cons x s ih =>
    cases k with
    | zero => simp [valueCount]
    | succ q =>
      have := ih q
      simp only [List.take_succ_cons, valueCount]
      omega

theorem rowAt_map_fill (m : List Row) (i : Nat) (hi : i < m.length) :
    rowAt (m.map fill) i = fill (rowAt m i) := by
  induction m generalizing i with
  | nil => simp at hi
  | cons x t ih =>
    cases i with
    | zero => rfl
    | succ q =>
      have := ih q (by simpa using hi)
      simpa [rowAt, List.getD_cons_succ] using this

theorem rowAt_replicate_unset_any (n i : Nat) :
    rowAt (List.replicate n Row.Unset) i = .Unset := by
  induction n generalizing i with
  | zero => cases i <;> rfl
  | succ k ih =>
    cases i with
    | zero => rfl
    | succ j => simpa [List.replicate_succ, rowAt, List.getD_cons_succ] using ih j

/-- The target row list `t` with only its first `k` rows committed. -/
def padUnset (k : Nat) (t : List Row) : List Row :=
  t.take k ++ List.replicate (t.length - k) .Unset

theorem padUnset_zero (t : List Row) : padUnset 0 t = List.replicate t.length .Unset := by
  simp [padUnset]

theorem padUnset_all (t : List Row) : padUnset t.length t = t := by
  simp [padUnset]

theorem padUnset_length (k : Nat) (t : List Row) : (padUnset k t).length = t.length := by
  simp [padUnset]
  omega

theorem padUnset_rowAt_ge (t : List Row) (k i : Nat) (h : k ≤ i) :
    rowAt (padUnset k t) i = .Unset := by
  induction t generalizing k i with
  | nil => simp [padUnset, rowAt]
  | cons x s ih =>
    cases k with
    | zero =>
      simpa [padUnset] using rowAt_replicate_unset_any (x :: s).length i
    | succ q =>
      cases i with
      | zero => omega
      | succ j =>
        have := ih q j (by omega)
        simpa [padUnset, List.take_succ_cons, rowAt, List.getD_cons_succ] using this

theorem padUnset_succ (t : List Row) (k : Nat) (hk : k < t.length) :
    padUnset (k + 1) t = (padUnset k t).set k (rowAt t k) := by
  induction t generalizing k with
  | nil => simp at hk
  | cons x s ih =>
    cases k with
    | zero =>
      simp [padUnset, rowAt, List.replicate_succ]
    | succ q =>
      have := ih q (by simpa using hk)
      simp only [padUnset, List.take_succ_cons, rowAt, List.getD_cons_succ,
        List.length_cons, Nat.succ_sub_succ] at this ⊢
      simpa using this

theorem valueCount_padUnset (k : Nat) (t : List Row) :
    valueCount (padUnset k t) = valueCount (t.take k) := by
  rw [padUnset, valueCount_append, valueCount_replicate_unset]
  omega

/-- One iteration of the `normalize` loop, named for proof bookkeeping. -/
def normStep (a : JaggedArray) (u : Bool) (jarr : JaggedArray) (index : Nat) :
    JaggedArray :=
  match unsafeGetitem a index with
  | .Unset => if u then unsafeSetnull jarr index else jarr
  | .Null => unsafeSetnull jarr index
  | .Values vs => (unsafeSetitem jarr index vs).1

theorem normalize_eq_fold (a : JaggedArray) (u : Bool) :
    normalize a u = (List.range a.storage_indices.length).foldl (normStep a u)
      (JaggedArray.new a.size (cval a a.storage_count).toNat) := rfl

theorem normStep_unset (a : JaggedArray) (u : Bool) (jarr : JaggedArray) (q : Nat)
    (h : unsafeGetitem a q = .Unset) :
    normStep a u jarr q = if u then unsafeSetnull jarr q else jarr := by
  rw [normStep, h]

theorem normStep_null (a : JaggedArray) (u : Bool) (jarr : JaggedArray) (q : Nat)
    (h : unsafeGetitem a q = .Null) :
    normStep a u jarr q = unsafeSetnull jarr q := by
  rw [normStep, h]

theorem normStep_values (a : JaggedArray) (u : Bool) (jarr : JaggedArray) (q : Nat)
    (vs : List Int) (h : unsafeGetitem a q = .Values vs) :
    normStep a u jarr q = (unsafeSetitem jarr q vs).1 := by
  rw [normStep, h]

/-- `normalize` on a well-formed store is well-formed over the source's
rows, with `Unset` resolved to `Null` exactly when requested. -/
theorem WF_normalize (a : JaggedArray) (m : List Row) (h : WF a m) (u : Bool) :
    WF (normalize a u) (if u then m.map fill else m) := by
  set t : List Row := if u then m.map fill else m with htdef
  have htlen : t.length = m.length := by
    rw [htdef]; cases u <;> simp
  have htvc : valueCount t = valueCount m := by
    rw [htdef]; cases u <;> simp [valueCount_map_fill]
  have htOf : ∀ i, i < m.length → rowAt m i ≠ .Unset → rowAt t i = rowAt m i := by
    intro i hi hne
    rw [htdef]; cases u
    · simp
    · simp [rowAt_map_fill m i hi, fill_id _ hne]
  have htUn : ∀ i, i < m.length → rowAt m i = .Unset →
      rowAt t i = (if u then Row.Null else Row.Unset) := by
    intro i hi he
    rw [htdef]; cases u
    · simpa using he
    · simp [rowAt_map_fill m i hi, he]
      rfl
  have hcap0 : (cval a a.storage_count).toNat = valueCount m := by
    rw [h.htail]; exact Int.toNat_natCast _
  have key : ∀ k, k ≤ m.length →
      WF ((List.range k).foldl (normStep a u)
          (JaggedArray.new a.size (cval a a.storage_count).toNat)) (padUnset k t) ∧
      ((List.range k).foldl (normStep a u)
          (JaggedArray.new a.size (cval a a.storage_count).toNat)).values.length
        = valueCount m := by
    intro k
    induction k with
    | zero =>
      intro _
      constructor
      · rw [padUnset_zero, htlen, ← h.hsz]
        exact WF_new a.size _
      · simp [JaggedArray.new, hcap0]
    | succ q ih =>
      intro hq
      obtain ⟨hb, hbv⟩ := ih (by omega)
      rw [List.range_succ, List.foldl_append, List.foldl_cons, List.foldl_nil]
      set B := (List.range q).foldl (normStep a u)
        (JaggedArray.new a.size (cval a a.storage_count).toNat) with hBdef
      have hpadlen : (padUnset q t).length = m.length := by
        rw [padUnset_length, htlen]
      have hpq : rowAt (padUnset q t) q = .Unset := padUnset_rowAt_ge t q q (le_refl q)
      have hsrc : unsafeGetitem a q = rowAt m q := h.hget q (by omega)
      cases hr : rowAt m q with
      | Unset =>
        have hstep := normStep_unset a u B q (by rw [hsrc, hr])
        by_cases hu : u = true
        · rw [hstep, if_pos hu]
          constructor
          · rw [padUnset_succ t q (by omega), htUn q (by omega) hr, if_pos hu]
            exact WF_setnull B (padUnset q t) hb q (by omega) hpq
          · exact hbv
        · rw [hstep, if_neg hu]
          constructor
          · rw [padUnset_succ t q (by omega), htUn q (by omega) hr, if_neg hu,
              show Row.Unset = rowAt (padUnset q t) q from hpq.symm,
              set_rowAt_self _ q (by omega)]
            exact hb
          · exact hbv
      | Null =>
        have hstep := normStep_null a u B q (by rw [hsrc, hr])
        rw [hstep]
        constructor
        · rw [padUnset_succ t q (by omega), htOf q (by omega) (by rw [hr]; simp), hr]
          exact WF_setnull B (padUnset q t) hb q (by omega) hpq
        · exact hbv
      | Values vs =>
        have hstep := normStep_values a u B q vs (by rw [hsrc, hr])
        rw [hstep]
        have ht2 : rowAt t q = .Values vs := by
          rw [htOf q (by omega) (by rw [hr]; simp), hr]
        have hroomB : valueCount (padUnset q t) + vs.length ≤ B.values.length := by
          rw [hbv, valueCount_padUnset]
          have h1 : valueCount (t.take (q + 1))
              = valueCount (t.take q) + vlen (rowAt t q) :=
            valueCount_take_succ t q (by omega)
          have h3 := valueCount_take_le t (q + 1)
          rw [ht2] at h1
          have h4 : vlen (Row.Values vs) = vs.length := rfl
          rw [h4] at h1
          omega
        obtain ⟨hok, hWF2, hvl2⟩ := WF_setitem B (padUnset q t) hb q
          (by omega) hpq vs hroomB
        constructor
        · rw [padUnset_succ t q (by omega), ht2]
          exact hWF2
        · rw [hvl2, hbv]
  obtain ⟨hfin, _⟩ := key m.length (le_refl _)
  have hpad : padUnset m.length t = t := by
    rw [show m.length = t.length from htlen.symm, padUnset_all]
  rw [hpad] at hfin
  rw [normalize_eq_fold, h.hsil]
  exact hfin

/-- The `normalize` loop, threading the receiver: the first component is
carried through untouched because the loop only reads the source. -/
theorem normalizeS_fold (a : JaggedArray) (u : Bool) (l : List Nat) (b0 : JaggedArray) :
    l.foldl (fun p index =>
        let r := getitemRead p.1 index
        match r.2 with
        | .Unset => (r.1, if u then unsafeSetnull p.2 index else p.2)
        | .Null => (r.1, unsafeSetnull p.2 index)
        | .Values vs => (r.1, (unsafeSetitem p.2 index vs).1)) (a, b0)
      = (a, l.foldl (normStep a u) b0) := by
  induction l generalizing b0 with
  | nil => rfl
  | cons x t ih =>
    have hstep : (fun (p : JaggedArray × JaggedArray) index =>
        let r := getitemRead p.1 index
        match r.2 with
        | .Unset => (r.1, if u then unsafeSetnull p.2 index else p.2)
        | .Null => (r.1, unsafeSetnull p.2 index)
        | .Values vs => (r.1, (unsafeSetitem p.2 index vs).1)) (a, b0) x
        = (a, normStep a u b0 x) := by
      cases hg : unsafeGetitem a x <;> simp [getitemRead, normStep, hg]
    exact Eq.trans
      (congrArg (fun z => List.foldl (fun (p : JaggedArray × JaggedArray) index =>
        let r := getitemRead p.1 index
        match r.2 with
        | .Unset => (r.1, if u then unsafeSetnull p.2 index else p.2)
        | .Null => (r.1, unsafeSetnull p.2 index)
        | .Values vs => (r.1, (unsafeSetitem p.2 index vs).1)) z t) hstep)
      (ih (normStep a u b0 x))

/-- C7: `normalize` performs only reads on its receiver — threading the
source through every operation of the loop returns it untouched, all four
mutable fields included, while the second component is the freshly
constructed copy. -/
theorem C7_normalize_frame (a : JaggedArray) (u : Bool) :
    (normalizeS a u).1 = a ∧
    (normalizeS a u).1.compressed_indices = a.compressed_indices ∧
    (normalizeS a u).1.storage_indices = a.storage_indices ∧
    (normalizeS a u).1.values = a.values ∧
    (normalizeS a u).1.storage_count = a.storage_count ∧
    (normalizeS a u).2 = normalize a u := by
  have h1 : normalizeS a u = (a, normalize a u) := by
    rw [normalizeS, normalizeS_fold, ← normalize_eq_fold]
  rw [h1]
  exact ⟨rfl, rfl, rfl, rfl, rfl, rfl⟩

/-- C5: `normalize(unspecified_is_null=False)` reproduces the source's
`to_sequence()` exactly (`Unset` preserved), and
`normalize(unspecified_is_null=True)` reproduces it with every `Unset`
replaced by `Null`. -/
theorem C5_normalize_tolist (a : JaggedArray) (m : List Row) (h : WF a m) :
    tolist (normalize a false) = tolist a ∧
    tolist (normalize a true) = (tolist a).map fill := by
  have h0 : tolist a = m := WF_tolist a m h
  have hf := WF_normalize a m h false
  have ht := WF_normalize a m h true
  constructor
  · rw [WF_tolist _ _ hf]
    simp [h0]
  · rw [WF_tolist _ _ ht]
    simp [h0]

theorem setitem_normIdx (a : JaggedArray) (index : Int) (row : Row)
    (hpos : 0 ≤ normIdx a index) :
    setitem a index row = setitem a (normIdx a index) row := by
  have hfix : normIdx a (normIdx a index) = normIdx a index := by
    generalize normIdx a index = y at hpos ⊢
    rw [normIdx, if_neg (by omega)]
  simp only [setitem, hfix]

/-- Inversion of a successful `__setitem__` call on a well-formed store:
the result is well-formed over the correspondingly updated rows. -/
theorem setitem_ok_inv (a : JaggedArray) (m : List Row) (h : WF a m)
    (index : Int) (row : Row) (hok : (setitem a index row).2 = none) :
    WF (setitem a index row).1
      (if row = .Unset then m else m.set (normIdx a index).toNat row) := by
  by_cases hb : 0 ≤ normIdx a index ∧ normIdx a index < (a.size : Int)
  · have hi : (normIdx a index).toNat < m.length := by
      have := hb.2
      rw [h.hsz] at this
      omega
    have hre : setitem a index row = setitem a (((normIdx a index).toNat : Nat) : Int) row := by
      rw [setitem_normIdx a index row hb.1]
      congr 1
      omega
    by_cases hu : rowAt m (normIdx a index).toNat = .Unset
    · have hchar := setitem_unset a m h (normIdx a index).toNat hi hu row
      cases row with
      | Unset =>
        exfalso
        rw [hre, hchar] at hok
        have hok2 : (some VErr.NameError : Option VErr) = none := hok
        exact Option.noConfusion hok2
      | Null =>
        rw [if_neg (by simp), hre, hchar]
        exact WF_setnull a m h _ hi hu
      | Values vs =>
        rw [if_neg (by simp), hre, hchar]
        by_cases hcavail : cval a a.storage_count + (vs.length : Int)
            ≤ (a.values.length : Int)
        · exact (WF_setitem a m h _ hi hu vs (by rw [h.htail] at hcavail; omega)).2.1
        · exfalso
          rw [hre, hchar] at hok
          have hok2 : (unsafeSetitem a (normIdx a index).toNat vs).2 = none := hok
          rw [unsafeSetitem_neg a _ vs hcavail] at hok2
          simp at hok2
    · exfalso
      rw [hre, setitem_assigned a m h _ hi hu row] at hok
      simp at hok
  · exfalso
    rw [setitem_oob a index row (by rw [h.hsil, h.hsz]) hb] at hok
    simp at hok

/-- Stores reachable through the public API (`__init__`, successful
`__setitem__` calls, `finalize`, `normalize`), paired with the logical rows
they hold. -/
inductive Reachable : JaggedArray → List Row → Prop where
  | new (n cap : Nat) : Reachable (JaggedArray.new n cap) (List.replicate n .Unset)
  | set (a : JaggedArray) (m : List Row) (index : Int) (row : Row)
      (a2 : JaggedArray) (m2 : List Row) (h : Reachable a m)
      (hok : setitem a index row = (a2, none))
      (hm2 : m2 = if row = .Unset then m else m.set (normIdx a index).toNat row) :
      Reachable a2 m2
  | fin (a : JaggedArray) (m : List Row) (h : Reachable a m) :
      Reachable (finalize a) (m.map fill)
  | norm (a : JaggedArray) (m : List Row) (u : Bool) (h : Reachable a m) :
      Reachable (normalize a u) (if u then m.map fill else m)

/-- Every reachable store is well-formed over the rows it holds. -/
theorem Reachable_WF (a : JaggedArray) (m : List Row) (h : Reachable a m) :
    WF a m := by
  induction h with
  | new n cap => exact WF_new n cap
  | set a1 m1 index row a2 m2 hr hok hm2 ih =>
    have h2 := setitem_ok_inv a1 m1 ih index row (by rw [hok])
    have ha2 : a2 = (setitem a1 index row).1 := by rw [hok]
    rw [ha2, hm2]
    exact h2
  | fin a1 m1 hr ih => exact WF_finalize a1 m1 ih
  | norm a1 m1 u hr ih => exact WF_normalize a1 m1 ih u

/-- C8: after every sequence of successful operations, `storage_index[i]`
is `-1` exactly for the rows still `Unset`; every assigned row maps to a
slot in `[0, storage_count)`, injectively. -/
theorem C8_storage_index_invariant (a : JaggedArray) (m : List Row)
    (h : Reachable a m) :
    (∀ i, i < m.length → ((rowAt m i = .Unset ↔ siAt a i = -1) ∧
      (rowAt m i ≠ .Unset → 0 ≤ siAt a i ∧ siAt a i < (a.storage_count : Int)))) ∧
    (∀ i, i < m.length → ∀ j, j < m.length → rowAt m i ≠ .Unset →
      rowAt m j ≠ .Unset → siAt a i = siAt a j → i = j) := by
  have hWF := Reachable_WF a m h
  exact ⟨fun i hi => ⟨hWF.hunset i hi, hWF.hslot i hi⟩, hWF.hinj⟩

/-- Witness for C8: a size-2 store with one committed `Values` row. -/
theorem C8_witness :
    (∀ i, i < ([Row.Values [7], Row.Unset] : List Row).length →
      ((rowAt [Row.Values [7], Row.Unset] i = .Unset ↔
        siAt (setitem (JaggedArray.new 2 3) 0 (.Values [7])).1 i = -1) ∧
      (rowAt [Row.Values [7], Row.Unset] i ≠ .Unset →
        0 ≤ siAt (setitem (JaggedArray.new 2 3) 0 (.Values [7])).1 i ∧
        siAt (setitem (JaggedArray.new 2 3) 0 (.Values [7])).1 i
          < ((setitem (JaggedArray.new 2 3) 0 (.Values [7])).1.storage_count : Int)))) ∧
    (∀ i, i < ([Row.Values [7], Row.Unset] : List Row).length →
      ∀ j, j < ([Row.Values [7], Row.Unset] : List Row).length →
      rowAt [Row.Values [7], Row.Unset] i ≠ .Unset →
      rowAt [Row.Values [7], Row.Unset] j ≠ .Unset →
      siAt (setitem (JaggedArray.new 2 3) 0 (.Values [7])).1 i
        = siAt (setitem (JaggedArray.new 2 3) 0 (.Values [7])).1 j → i = j) :=
  C8_storage_index_invariant (setitem (JaggedArray.new 2 3) 0 (.Values [7])).1
    [Row.Values [7], Row.Unset]
    (Reachable.set (JaggedArray.new 2 3) (List.replicate 2 .Unset) 0 (.Values [7])
      _ _ (Reachable.new 2 3) (by decide) (by decide))

/-- C10: the tail entry `compressed_index[storage_count]` of every reachable
store is nonnegative (never carries the negative null encoding) and equals
the total number of value elements consumed by its `Values` rows. -/
theorem C10_tail_offset_plain (a : JaggedArray) (m : List Row)
    (h : Reachable a m) :
    cval a a.storage_count = (valueCount m : Int) ∧ 0 ≤ cval a a.storage_count := by
  have hWF := Reachable_WF a m h
  exact ⟨hWF.htail, by rw [hWF.htail]; exact Int.natCast_nonneg _⟩

/-- Witness for C10: after a null row and a two-element row, the tail entry
is the plain offset 2. -/
theorem C10_witness :
    cval (setitem (setitem (JaggedArray.new 3 2) 1 .Null).1 0 (.Values [4, 5])).1
        (setitem (setitem (JaggedArray.new 3 2) 1 .Null).1 0 (.Values [4, 5])).1.storage_count
      = (valueCount [Row.Values [4, 5], Row.Null, Row.Unset] : Int) ∧
    0 ≤ cval (setitem (setitem (JaggedArray.new 3 2) 1 .Null).1 0 (.Values [4, 5])).1
        (setitem (setitem (JaggedArray.new 3 2) 1 .Null).1 0 (.Values [4, 5])).1.storage_count :=
  C10_tail_offset_plain _ [Row.Values [4, 5], Row.Null, Row.Unset]
    (Reachable.set (setitem (JaggedArray.new 3 2) 1 .Null).1 [Row.Unset, Row.Null, Row.Unset]
      0 (.Values [4, 5]) _ _
      (Reachable.set (JaggedArray.new 3 2) (List.replicate 3 .Unset) 1 .Null
        _ _ (Reachable.new 3 2) (by decide) (by decide))
      (by decide) (by decide))

/-- C2 (amended): a `set(index, Values(seq))` whose payload would overflow
the buffer fails with `CapacityExceeded`; `compressed_index`, the values
buffer and `storage_count` are untouched, but `storage_index[index]` has
already been overwritten with the current `storage_count` when the
assertion fires — the store is not left exactly as before the call. -/
theorem C2_capacity_exceeded (a : JaggedArray) (m : List Row) (h : WF a m)
    (i : Nat) (hi : i < m.length) (hu : rowAt m i = .Unset) (vs : List Int)
    (hover : (a.values.length : Int) < (valueCount m : Int) + (vs.length : Int)) :
    setitem a (i : Int) (.Values vs)
      = ({ a with storage_indices := a.storage_indices.set i (a.storage_count : Int) },
         some .CapacityExceeded) := by
  rw [setitem_unset a m h i hi hu (.Values vs)]
  exact unsafeSetitem_neg a i vs (by rw [h.htail]; omega)

/-- Witness for C2 (amended) on `JaggedArray(1, 0)`. -/
theorem C2_witness :
    setitem (JaggedArray.new 1 0) 0 (.Values [1])
      = ({ JaggedArray.new 1 0 with
            storage_indices := (JaggedArray.new 1 0).storage_indices.set 0
              ((JaggedArray.new 1 0).storage_count : Int) },
         some .CapacityExceeded) :=
  C2_capacity_exceeded (JaggedArray.new 1 0) [Row.Unset]
    ⟨by decide, by decide, by decide, by decide, by decide, by decide, by decide,
     by decide, by decide, by decide, by decide⟩
    0 (by decide) (by decide) [1] (by decide)

/-- C2 counterexample: on `JaggedArray(1, 0)`, `set(0, Values([1]))` raises
`CapacityExceeded` yet `storage_indices` is left overwritten — the store is
not "exactly as it was before the rejected call". -/
theorem C2_counterexample :
    (setitem (JaggedArray.new 1 0) 0 (.Values [1])).2 = some .CapacityExceeded ∧
    (setitem (JaggedArray.new 1 0) 0 (.Values [1])).1 ≠ JaggedArray.new 1 0 ∧
    (setitem (JaggedArray.new 1 0) 0 (.Values [1])).1.storage_indices ≠
      (JaggedArray.new 1 0).storage_indices := by decide

/-- C3 (amended): a `set` whose normalized index falls outside `[0, n)`
fails and leaves the store unchanged; the error is `IndexOutOfBounds`
except when the normalized index is still negative and the slot it wraps
around to is already assigned, in which case the duplicate assert runs
first and `DuplicateAssignment` is surfaced. -/
theorem C3_out_of_range (a : JaggedArray) (m : List Row) (h : WF a m)
    (index : Int) (row : Row)
    (hoob : ¬ (0 ≤ normIdx a index ∧ normIdx a index < (a.size : Int))) :
    setitem a index row =
      (a, some (if -(a.size : Int) ≤ normIdx a index ∧ normIdx a index < 0 ∧
           siAt a (normIdx a index + (a.size : Int)).toNat ≠ -1
         then .DuplicateAssignment else .IndexOutOfBounds)) :=
  setitem_oob a index row (by rw [h.hsil, h.hsz]) hoob

/-- Witness for C3 (amended): `set(-2, Null)` on a size-1 store with index
0 assigned. -/
theorem C3_witness :
    setitem (setitem (JaggedArray.new 1 0) 0 Row.Null).1 (-2) Row.Null
      = ((setitem (JaggedArray.new 1 0) 0 Row.Null).1,
         some (if -(((setitem (JaggedArray.new 1 0) 0 Row.Null).1.size : Int))
                 ≤ normIdx (setitem (JaggedArray.new 1 0) 0 Row.Null).1 (-2) ∧
               normIdx (setitem (JaggedArray.new 1 0) 0 Row.Null).1 (-2) < 0 ∧
               siAt (setitem (JaggedArray.new 1 0) 0 Row.Null).1
                 (normIdx (setitem (JaggedArray.new 1 0) 0 Row.Null).1 (-2)
                   + (((setitem (JaggedArray.new 1 0) 0 Row.Null).1.size : Int))).toNat ≠ -1
             then VErr.DuplicateAssignment else VErr.IndexOutOfBounds)) :=
  C3_out_of_range (setitem (JaggedArray.new 1 0) 0 Row.Null).1 [Row.Null]
    ⟨by decide, by decide, by decide, by decide, by decide, by decide, by decide,
     by decide, by decide, by decide, by decide⟩
    (-2) Row.Null (by decide)

/-- C3 counterexample: with logical index 0 of a size-1 store assigned,
`set(-2, ...)` normalizes to `-1`, outside `[0, 1)`, yet fails with
`DuplicateAssignment` rather than `IndexOutOfBounds` (the duplicate assert
reads `storage_indices[-1]`, which wraps to the assigned slot 0). -/
theorem C3_counterexample :
    ¬ (0 ≤ normIdx (setitem (JaggedArray.new 1 0) 0 Row.Null).1 (-2) ∧
       normIdx (setitem (JaggedArray.new 1 0) 0 Row.Null).1 (-2)
         < (((setitem (JaggedArray.new 1 0) 0 Row.Null).1.size : Int))) ∧
    (setitem (setitem (JaggedArray.new 1 0) 0 Row.Null).1 (-2) Row.Null).2
      = some .DuplicateAssignment ∧
    (setitem (setitem (JaggedArray.new 1 0) 0 Row.Null).1 (-2) Row.Null).2
      ≠ some .IndexOutOfBounds := by decide

/-- C4: a second `set` on an already-assigned logical index fails with
`DuplicateAssignment`, whatever the new row, and returns the store
untouched. -/
theorem C4_duplicate_rejected (a : JaggedArray) (m : List Row) (h : WF a m)
    (i : Nat) (hi : i < m.length) (hs : rowAt m i ≠ .Unset) (row : Row) :
    setitem a (i : Int) row = (a, some .DuplicateAssignment) :=
  setitem_assigned a m h i hi hs row

/-- Witness for C4, the spec's scenario: on a size-5 store, `set(2, Null)`
then `set(2, Values([1]))` fails with `DuplicateAssignment` and index 2
still reads back `Null`. -/
theorem C4_witness :
    setitem (setitem (JaggedArray.new 5 3) 2 Row.Null).1 2 (.Values [1])
      = ((setitem (JaggedArray.new 5 3) 2 Row.Null).1, some .DuplicateAssignment) ∧
    unsafeGetitem (setitem (JaggedArray.new 5 3) 2 Row.Null).1 2 = .Null :=
  ⟨C4_duplicate_rejected (setitem (JaggedArray.new 5 3) 2 Row.Null).1
      [Row.Unset, Row.Unset, Row.Null, Row.Unset, Row.Unset]
      ⟨by decide, by decide, by decide, by decide, by decide, by decide, by decide,
       by decide, by decide, by decide, by decide⟩
      2 (by decide) (by decide) (.Values [1]),
   by decide⟩

/-- C9 (amended): assigning the `UNSPECIFIED` sentinel to an in-range,
still-unset logical index is not a silent no-op: both asserts pass, but the
dispatch then evaluates `isinstance(varlenarray, VarLengthArray)` — a name
undefined in the module — before the `UNSPECIFIED` test, so the call raises
`NameError`.  The store is unmodified and the row still reads back
`Unset`. -/
theorem C9_unspecified_raises (a : JaggedArray) (i : Nat)
    (hlen : i < a.storage_indices.length) (hsz : i < a.size)
    (hunset : siAt a i = -1) :
    setitem a (i : Int) .Unset = (a, some .NameError) ∧
    unsafeGetitem a i = .Unset := by
  have hnorm : normIdx a (i : Int) = (i : Int) := by rw [normIdx, if_neg (by omega)]
  have hsv : pyGetI a.storage_indices (i : Int) = some (siAt a i) := pyGetI_nat a i hlen
  constructor
  · simp only [setitem, hnorm, hsv]
    rw [if_pos hunset, if_pos ⟨by omega, by omega⟩]
  · rw [unsafeGetitem_eq, if_pos hunset]

/-- C9 counterexample: on a fresh size-3 store, `set(1, UNSPECIFIED)` does
not return without error — it surfaces `NameError` — so the claimed silent
no-op fails at this concrete input (the store is still unchanged). -/
theorem C9_counterexample :
    (setitem (JaggedArray.new 3 2) 1 .Unset).2 ≠ none ∧
    (setitem (JaggedArray.new 3 2) 1 .Unset).2 = some .NameError ∧
    (setitem (JaggedArray.new 3 2) 1 .Unset).1 = JaggedArray.new 3 2 := by decide

/-- Witness for C9 (amended) on a fresh size-3 store at index 1. -/
theorem C9_witness :
    setitem (JaggedArray.new 3 2) 1 .Unset = (JaggedArray.new 3 2, some .NameError) ∧
    unsafeGetitem (JaggedArray.new 3 2) 1 = .Unset :=
  C9_unspecified_raises (JaggedArray.new 3 2) 1 (by decide) (by decide) (by decide)

/-- Witness for C5 on a store mixing `Null`, `Values` and `Unset` rows,
inserted out of logical order. -/
theorem C5_witness :
    tolist (normalize (setitem (setitem (JaggedArray.new 3 2) 1 (.Values [4, 5])).1 0 Row.Null).1 false)
      = tolist (setitem (setitem (JaggedArray.new 3 2) 1 (.Values [4, 5])).1 0 Row.Null).1 ∧
    tolist (normalize (setitem (setitem (JaggedArray.new 3 2) 1 (.Values [4, 5])).1 0 Row.Null).1 true)
      = (tolist (setitem (setitem (JaggedArray.new 3 2) 1 (.Values [4, 5])).1 0 Row.Null).1).map fill :=
  C5_normalize_tolist
    (setitem (setitem (JaggedArray.new 3 2) 1 (.Values [4, 5])).1 0 Row.Null).1
    [Row.Null, Row.Values [4, 5], Row.Unset]
    ⟨by decide, by decide, by decide, by decide, by decide, by decide, by decide,
     by decide, by decide, by decide, by decide⟩
